import Mathlib

/-!
# Verification of the traffic reconciliation logic of `repostats.py`

This file gives a shallow embedding of the merge/reconciliation logic of the
repository's single source file `src/repostats.py` and proves properties of it.

Modelling conventions:

* Calendar dates are integers (days); `pd.Timestamp` arithmetic on whole days
  becomes `ℤ` arithmetic.
* Counters are natural numbers (the upstream API returns non-negative counts).
* A Python `dict` is an association list without duplicate keys, preserving
  insertion order: updating an existing key rewrites its value in place,
  inserting a new key appends at the end.
* A pandas `DataFrame` indexed by date is a list of `(index, row)` pairs.
* In `_create_cumulative_dataframe` the keys of the *old* dict come from
  `pd.read_csv(..., parse_dates=["_date"]).to_dict(orient="index")` and are
  pandas `Timestamp` objects, while the keys of the *new* dict come from
  `_get_counts` and are `datetime.date` objects.  In Python a `Timestamp` and
  a `date` are never equal (`Timestamp.__eq__`/`date.__eq__` return `False`
  across the two types), so dict lookups never identify them.  The key type
  `PyDate` records which of the two classes a key belongs to; equality on
  `PyDate` is structural, hence `ts d ≠ pyDate d`, exactly as in Python.
  The later `pd.to_datetime(index, utc=True)` call maps both back to the same
  calendar day (`PyDate.day`).
-/

/-- A row of a time-series table: the pair of columns
`total_<metric_type>` / `unique_<metric_type>`. -/
structure Counts where
  total : ℕ
  unique : ℕ
deriving DecidableEq, Repr

instance : Add Counts := ⟨fun a b => ⟨a.total + b.total, a.unique + b.unique⟩⟩

theorem Counts.add_def (a b : Counts) :
    a + b = ⟨a.total + b.total, a.unique + b.unique⟩ := rfl

/-- Python `d.get(k)`: first entry of the association list with key `k`. -/
def dict_get {κ β : Type} [DecidableEq κ] : List (κ × β) → κ → Option β
  | [], _ => none
  | p :: ps, k => if p.1 = k then some p.2 else dict_get ps k

/-- Python `d[k] = v`: update in place if the key is present,
append at the end otherwise. -/
def dict_set {κ β : Type} [DecidableEq κ] (l : List (κ × β)) (k : κ) (v : β) :
    List (κ × β) :=
  if (dict_get l k).isSome then
    l.map (fun p => if p.1 = k then (k, v) else p)
  else
    l ++ [(k, v)]

/-- `pd.date_range(start=lo, end=hi, freq='D')` as a list of days. -/
def date_range (lo hi : ℤ) : List ℤ :=
  (List.range (hi + 1 - lo).toNat).map (fun i : ℕ => lo + (i : ℤ))

/-- `src/repostats.py::_merge_dict` (lines 165-178): iterate over the keys of
the new dict; insert keys absent from the old dict; overwrite an existing
entry (the whole row) when the new row is strictly greater in the total or in
the unique column. -/
def merge_dict {κ : Type} [DecidableEq κ]
    (old_data new_data : List (κ × Counts)) : List (κ × Counts) :=
  new_data.foldl (fun acc kv =>
    match dict_get acc kv.1 with
    | none => dict_set acc kv.1 kv.2
    | some w =>
      if w.total < kv.2.total ∨ w.unique < kv.2.unique then
        dict_set acc kv.1 kv.2
      else acc) old_data

/-- The two Python classes that occur as dict keys in
`_create_cumulative_dataframe`: pandas `Timestamp` (old rows, parsed from the
CSV file) and `datetime.date` (new rows, produced by `_get_counts`).  Values
of the two classes are never equal in Python, even for the same calendar
day; the derived `DecidableEq` reproduces this. -/
inductive PyDate where
  | ts (day : ℤ)
  | pyDate (day : ℤ)
deriving DecidableEq, Repr

/-- `pd.to_datetime(key, utc=True)`: both key classes denote a calendar day. -/
def PyDate.day : PyDate → ℤ
  | .ts d => d
  | .pyDate d => d

/-- `total_<m>`/`unique_<m>` sum of all rows of the frame carrying calendar
day `d` — what `dataframe.groupby(dataframe.index).sum()` computes for the
group of `d`. -/
def day_sum (l : List (ℤ × Counts)) (d : ℤ) : Counts :=
  l.foldl (fun a p => if p.1 = d then a + p.2 else a) ⟨0, 0⟩

/-- The ascending list of distinct calendar days of a frame (the index of the
`groupby(...).sum()` result). -/
def sorted_days (l : List (ℤ × Counts)) : List ℤ :=
  List.insertionSort (· ≤ ·) (l.map Prod.fst).dedup

/-- `dataframe.groupby(dataframe.index).sum()`: one row per distinct day,
ascending, summing the rows of each group. -/
def group_sum (l : List (ℤ × Counts)) : List (ℤ × Counts) :=
  (sorted_days l).map (fun d => (d, day_sum l d))

/-- `dataframe.index.min()` (0 on the empty frame, where pandas would give
`NaT`; the source never reaches that case because `_get_counts` always
produces 14 dates). -/
def days_min : List (ℤ × Counts) → ℤ
  | [] => 0
  | p :: ps => (ps.map Prod.fst).foldl min p.1

/-- `dataframe.index.max()`. -/
def days_max : List (ℤ × Counts) → ℤ
  | [] => 0
  | p :: ps => (ps.map Prod.fst).foldl max p.1

/-- `dataframe.reindex(pd.date_range(index.min(), index.max()), fill_value=0)`:
one row per calendar day from the minimum to the maximum of the index, taking
the frame's row where present and `{total: 0, unique: 0}` otherwise. -/
def densify (l : List (ℤ × Counts)) : List (ℤ × Counts) :=
  match l with
  | [] => []
  | _ =>
    (date_range (days_min l) (days_max l)).map
      (fun d => (d, (dict_get l d).getD ⟨0, 0⟩))

/-- The frame built in `_create_cumulative_dataframe` (lines 135-148) before
the `groupby`: with a readable old file, `pd.DataFrame.from_dict` of
`_merge_dict(old_data, data)` where the old keys are `Timestamp`s and the new
keys are `date`s; on the first-run branch, `from_dict` of `data` alone.  The
final `.map` is `pd.to_datetime(index, utc=True)`, which projects every key
to its calendar day. -/
def cumul_frame (old_data : Option (List (ℤ × Counts)))
    (data : List (ℤ × Counts)) : List (ℤ × Counts) :=
  match old_data with
  | some old =>
    (merge_dict (old.map (fun p => (PyDate.ts p.1, p.2)))
        (data.map (fun p => (PyDate.pyDate p.1, p.2)))).map
      (fun p => (p.1.day, p.2))
  | none => (data.map (fun p => (PyDate.pyDate p.1, p.2))).map
      (fun p => (p.1.day, p.2))

/-- `src/repostats.py::_create_cumulative_dataframe` (lines 132-163).
`old_data = none` models the `except` branch (missing or unparseable prior
file).  After building the frame: group duplicate dates by summing, then
reindex over the full `date_range` with zero fill.  The final
`tz_convert(None)` does not change calendar days and the write to CSV is
I/O, so the returned table is the persisted one. -/
def create_cumulative_dataframe (old_data : Option (List (ℤ × Counts)))
    (data : List (ℤ × Counts)) : List (ℤ × Counts) :=
  densify (group_sum (cumul_frame old_data data))

/-- One element of the JSON array returned by the views/clones endpoint,
with its timestamp already bucketed to a UTC calendar day
(`pd.to_datetime(item["timestamp"], utc=True).date()`). -/
structure MetricEvent where
  day : ℤ
  count : ℕ
  uniques : ℕ
deriving DecidableEq, Repr

/-- Loop body of the first loop of `_get_counts` (lines 110-115): insert a
zero entry for an unseen date, then add the event's `count`/`uniques`. -/
def accum_step (acc : List (ℤ × Counts)) (e : MetricEvent) : List (ℤ × Counts) :=
  match dict_get acc e.day with
  | none => dict_set acc e.day ⟨e.count, e.uniques⟩
  | some w => dict_set acc e.day ⟨w.total + e.count, w.unique + e.uniques⟩

/-- The first loop of `_get_counts`: per-day accumulation over the events. -/
def accumulate_counts (data : List MetricEvent) : List (ℤ × Counts) :=
  data.foldl accum_step []

/-- Loop body of the second loop of `_get_counts` (lines 123-128): insert a
zero entry for a date of the 14-day range that is still missing. -/
def fill_step (acc : List (ℤ × Counts)) (d : ℤ) : List (ℤ × Counts) :=
  if (dict_get acc d).isSome then acc else dict_set acc d ⟨0, 0⟩

/-- The second loop of `_get_counts`, over
`pd.date_range(today - 13 days, today)`. -/
def fill_range (counts : List (ℤ × Counts)) (today : ℤ) : List (ℤ × Counts) :=
  (date_range (today - 13) today).foldl fill_step counts

/-- `src/repostats.py::_get_counts` (lines 106-130): accumulate per-day sums
of `count` and `uniques` into a dict, then append a zero entry for every day
of the last-14-days range `[today-13, today]` that is still missing. -/
def get_counts (data : List MetricEvent) (today : ℤ) : List (ℤ × Counts) :=
  fill_range (accumulate_counts data) today

/-- `src/repostats.py::_create_snapshot_dataframe` (lines 43-51):
`df.sort_index().last('14D')` — sort by date ascending, then keep the rows
whose date is strictly within 14 days of the maximum date
(`searchsorted(idx[-1] - 14D, side="right")`). -/
def create_snapshot_dataframe (data : List (ℤ × Counts)) : List (ℤ × Counts) :=
  match data with
  | [] => []
  | _ =>
    (List.insertionSort (fun p q : ℤ × Counts => p.1 ≤ q.1) data).filter
      (fun q => decide (days_max data - 14 < q.1))

/-- A row of a ranked list as fetched (and as stored in the cumulative CSV
file, which is written with `index=False`).  For referral sources the key
column is `referrer` and `title` is unused; for referral paths the key
column is `path`.  Deduplication reads only the key column, so one row
shape covers both metric types. -/
structure RankedRow where
  key : String
  title : String
  count : ℕ
  uniques : ℕ
deriving DecidableEq, Repr

/-- A row of the combined ranked frame in `_create_referral_dataframe`.
`pd.concat` unions the columns of the two frames: a newly fetched row
carries its key, but a row read back from the prior file has lost its key
column — `pd.read_csv(file_path, index_col=0)` consumes the key column (the
first column of the file, which was written with `index=False`) as the
index, and `reset_index(drop=True)` then discards that index — so the key
of such a row is pandas `NaN`, modelled as `none`.  `drop_duplicates`
treats `NaN` keys as equal to each other, which plain equality on
`Option String` reproduces. -/
structure CombinedRow where
  key : Option String
  title : String
  count : ℕ
  uniques : ℕ
deriving DecidableEq, Repr

/-- A newly fetched row inside the combined frame: the key column is
present. -/
def to_combined (r : RankedRow) : CombinedRow :=
  ⟨some r.key, r.title, r.count, r.uniques⟩

/-- A prior-file row after `read_csv(index_col=0)` + `reset_index(drop=True)`
(lines 86-87): the key column is destroyed, the remaining columns survive. -/
def strip_key (r : RankedRow) : CombinedRow :=
  ⟨none, r.title, r.count, r.uniques⟩

/-- `pd.concat(...).drop_duplicates(subset=[key], keep="last")`: a row
survives exactly when no later row carries the same key (with `NaN` keys
equal to each other); surviving rows keep their relative order. -/
def drop_duplicates_keep_last : List CombinedRow → List CombinedRow
  | [] => []
  | r :: rs =>
    if r.key ∈ rs.map CombinedRow.key then drop_duplicates_keep_last rs
    else r :: drop_duplicates_keep_last rs

/-- `combined.sort_values("count", ascending=False)`. -/
def sort_values_count_desc (l : List CombinedRow) : List CombinedRow :=
  List.insertionSort (fun a b => b.count ≤ a.count) l

/-- `src/repostats.py::_create_referral_dataframe` (lines 76-99).
`old_data = none` models the `except` branch (missing or unparseable prior
file), in which the newly fetched rows are written unchanged (keys
present).  Otherwise the prior rows — read back key-less, see
`CombinedRow` — and the new rows are concatenated, deduplicated by key
keeping the last occurrence, and sorted descending by count. -/
def create_referral_dataframe (old_data : Option (List RankedRow))
    (data : List RankedRow) : List CombinedRow :=
  match old_data with
  | some old =>
    sort_values_count_desc
      (drop_duplicates_keep_last (old.map strip_key ++ data.map to_combined))
  | none => data.map to_combined

/-- The last row of the list whose key column holds `k`, if any — the row
that `drop_duplicates(keep="last")` retains for `k`. -/
def last_row_with (k : Option String) (rows : List CombinedRow) : Option CombinedRow :=
  rows.foldl (fun acc r => if r.key = k then some r else acc) none

/-- The per-day aggregate of a list of raw events: the sums of the `count`
and `uniques` fields of the events falling on day `d` (zero if none do). -/
def event_agg (events : List MetricEvent) (d : ℤ) : Counts :=
  ⟨((events.filter (fun e => decide (e.day = d))).map MetricEvent.count).sum,
   ((events.filter (fun e => decide (e.day = d))).map MetricEvent.uniques).sum⟩

/-! ## Basic lemmas about the dict model -/

theorem Counts.zero_add (a : Counts) : (⟨0, 0⟩ : Counts) + a = a := by
  cases a; simp [Counts.add_def]

theorem Counts.add_zero (a : Counts) : a + (⟨0, 0⟩ : Counts) = a := by
  cases a; simp [Counts.add_def]

theorem Counts.add_assoc (a b c : Counts) : a + b + c = a + (b + c) := by
  cases a; cases b; cases c; simp [Counts.add_def, Nat.add_assoc]

theorem dict_get_eq_none {κ β : Type} [DecidableEq κ] {l : List (κ × β)} {k : κ} :
    dict_get l k = none ↔ k ∉ l.map Prod.fst := by
  induction l with
  | nil => simp [dict_get]
  | cons p ps ih =>
    rw [List.map_cons]
    by_cases h : p.1 = k
    · rw [dict_get, if_pos h, h]
      simp
    · rw [dict_get, if_neg h, ih, List.mem_cons]
      constructor
      · intro hn hor
        rcases hor with h1 | h2
        · exact h h1.symm
        · exact hn h2
      · intro hn h2
        exact hn (Or.inr h2)

theorem dict_get_isSome {κ β : Type} [DecidableEq κ] {l : List (κ × β)} {k : κ} :
    (dict_get l k).isSome = true ↔ k ∈ l.map Prod.fst := by
  rw [← Decidable.not_iff_not, ← dict_get_eq_none]
  cases dict_get l k <;> simp

theorem dict_get_mem {κ β : Type} [DecidableEq κ] {l : List (κ × β)} {k : κ} {v : β}
    (h : dict_get l k = some v) : (k, v) ∈ l := by
  induction l with
  | nil => simp [dict_get] at h
  | cons p ps ih =>
    by_cases hp : p.1 = k
    · rw [dict_get, if_pos hp] at h
      injection h with h2
      exact List.mem_cons.mpr (Or.inl (by rw [← hp, ← h2]))
    · rw [dict_get, if_neg hp] at h
      exact List.mem_cons_of_mem _ (ih h)

theorem dict_get_eq_some_of_mem {κ β : Type} [DecidableEq κ] {l : List (κ × β)}
    {k : κ} {v : β} (hnd : (l.map Prod.fst).Nodup) (hm : (k, v) ∈ l) :
    dict_get l k = some v := by
  induction l with
  | nil => simp at hm
  | cons p ps ih =>
    rw [List.map_cons, List.nodup_cons] at hnd
    rcases List.mem_cons.mp hm with h | h
    · rw [← h]
      simp [dict_get]
    · have hk : k ∈ ps.map Prod.fst := List.mem_map.mpr ⟨(k, v), h, rfl⟩
      have hp : p.1 ≠ k := fun he => hnd.1 (he.symm ▸ hk)
      rw [dict_get, if_neg hp]
      exact ih hnd.2 h

theorem dict_get_append {κ β : Type} [DecidableEq κ] (l₁ l₂ : List (κ × β)) (k : κ) :
    dict_get (l₁ ++ l₂) k =
      match dict_get l₁ k with
      | some v => some v
      | none => dict_get l₂ k := by
  induction l₁ with
  | nil => simp [dict_get]
  | cons p ps ih =>
    by_cases hp : p.1 = k <;> simp [dict_get, hp, ih]

theorem dict_set_of_not_mem {κ β : Type} [DecidableEq κ] {l : List (κ × β)} {k : κ}
    (v : β) (h : k ∉ l.map Prod.fst) : dict_set l k v = l ++ [(k, v)] := by
  have : dict_get l k = none := dict_get_eq_none.mpr h
  simp [dict_set, this]

theorem dict_get_map_update {κ β : Type} [DecidableEq κ] (l : List (κ × β))
    (k : κ) (v : β) (k' : κ) :
    dict_get (l.map (fun p => if p.1 = k then (k, v) else p)) k' =
      if k' = k then (if k ∈ l.map Prod.fst then some v else none)
      else dict_get l k' := by
  induction l with
  | nil => simp [dict_get]
  | cons p ps ih =>
    by_cases hp : p.1 = k
    · by_cases hk : k' = k
      · subst hk
        simp [dict_get, hp, ih]
      · have : k ≠ k' := fun h => hk h.symm
        simp [dict_get, hp, this, hk, ih]
    · by_cases hpk : p.1 = k'
      · have hk : ¬ k' = k := fun h => hp (h ▸ hpk)
        simp [dict_get, hp, hpk, hk]
      · by_cases hk : k' = k
        · subst hk
          have hknp : ¬ k' = p.1 := fun h => hp h.symm
          simp [dict_get, hp, hknp, ih]
          by_cases hm2 : k' ∈ List.map Prod.fst ps
          · simp [hm2, List.mem_cons]
          · simp [hm2, List.mem_cons, hknp]
        · simp [dict_get, hp, hpk, ih, hk]

theorem dict_get_dict_set {κ β : Type} [DecidableEq κ] (l : List (κ × β))
    (k : κ) (v : β) (k' : κ) :
    dict_get (dict_set l k v) k' = if k' = k then some v else dict_get l k' := by
  by_cases hmem : k ∈ l.map Prod.fst
  · have hs : (dict_get l k).isSome = true := dict_get_isSome.mpr hmem
    simp only [dict_set, hs, if_pos]
    rw [dict_get_map_update]
    simp [hmem]
  · have hs : dict_get l k = none := dict_get_eq_none.mpr hmem
    simp only [dict_set, hs, Option.isSome_none, Bool.false_eq_true, if_false]
    rw [dict_get_append]
    by_cases hk : k' = k
    · subst hk
      simp [hs, dict_get]
    · have : ¬ k = k' := fun h => hk h.symm
      cases hg : dict_get l k' <;> simp [hk, dict_get, this]

theorem keys_dict_set {κ β : Type} [DecidableEq κ] (l : List (κ × β)) (k : κ) (v : β) :
    (dict_set l k v).map Prod.fst =
      if k ∈ l.map Prod.fst then l.map Prod.fst else l.map Prod.fst ++ [k] := by
  by_cases hmem : k ∈ l.map Prod.fst
  · have hs : (dict_get l k).isSome = true := dict_get_isSome.mpr hmem
    simp only [dict_set, hs, if_pos, hmem, List.map_map]
    apply List.map_congr_left
    intro p _
    by_cases hp : p.1 = k <;> simp [hp]
  · have hs : dict_get l k = none := dict_get_eq_none.mpr hmem
    simp [dict_set, hs, hmem]

theorem nodup_keys_dict_set {κ β : Type} [DecidableEq κ] {l : List (κ × β)}
    {k : κ} {v : β} (h : (l.map Prod.fst).Nodup) :
    ((dict_set l k v).map Prod.fst).Nodup := by
  rw [keys_dict_set]
  by_cases hmem : k ∈ l.map Prod.fst
  · simpa [hmem] using h
  · simp [hmem, List.nodup_append, h]

/-! ## Lemmas about `day_sum` (the `groupby(...).sum()` aggregation) -/

theorem day_sum_aux (d : ℤ) :
    ∀ (l : List (ℤ × Counts)) (a : Counts),
      l.foldl (fun a p => if p.1 = d then a + p.2 else a) a = a + day_sum l d
  | [], a => by simp [day_sum, Counts.add_zero]
  | p :: l, a => by
    by_cases hp : p.1 = d
    · simp only [day_sum, List.foldl_cons, hp, if_pos]
      rw [day_sum_aux d l (a + p.2), day_sum_aux d l ((⟨0, 0⟩ : Counts) + p.2),
        Counts.zero_add, Counts.add_assoc]
    · simp only [day_sum, List.foldl_cons, hp, if_neg, not_false_iff]
      rw [day_sum_aux d l a]
      rfl

theorem day_sum_cons (p : ℤ × Counts) (l : List (ℤ × Counts)) (d : ℤ) :
    day_sum (p :: l) d = if p.1 = d then p.2 + day_sum l d else day_sum l d := by
  show List.foldl (fun a q => if q.1 = d then a + q.2 else a) ⟨0, 0⟩ (p :: l) = _
  rw [List.foldl_cons, day_sum_aux d l]
  by_cases hp : p.1 = d <;> simp [hp, Counts.zero_add]

theorem day_sum_append (l₁ l₂ : List (ℤ × Counts)) (d : ℤ) :
    day_sum (l₁ ++ l₂) d = day_sum l₁ d + day_sum l₂ d := by
  show List.foldl (fun a q => if q.1 = d then a + q.2 else a) ⟨0, 0⟩ (l₁ ++ l₂) = _
  rw [List.foldl_append, day_sum_aux d l₂]
  rfl

theorem day_sum_eq_zero {l : List (ℤ × Counts)} {d : ℤ}
    (h : d ∉ l.map Prod.fst) : day_sum l d = ⟨0, 0⟩ := by
  induction l with
  | nil => rfl
  | cons p ps ih =>
    rw [List.map_cons, List.mem_cons] at h
    push_neg at h
    rw [day_sum_cons, if_neg (fun he => h.1 he.symm)]
    exact ih h.2

theorem day_sum_eq_of_mem {l : List (ℤ × Counts)} {d : ℤ} {v : Counts}
    (hnd : (l.map Prod.fst).Nodup) (hm : (d, v) ∈ l) : day_sum l d = v := by
  induction l with
  | nil => simp at hm
  | cons p ps ih =>
    rw [List.map_cons, List.nodup_cons] at hnd
    rw [day_sum_cons]
    rcases List.mem_cons.mp hm with h | h
    · have hp1 : p.1 = d := by rw [← h]
      have hd : d ∉ ps.map Prod.fst := hp1 ▸ hnd.1
      rw [if_pos hp1, day_sum_eq_zero hd, Counts.add_zero, ← h]
    · have hd : d ∈ ps.map Prod.fst := List.mem_map.mpr ⟨(d, v), h, rfl⟩
      have hp : p.1 ≠ d := fun he => hnd.1 (he.symm ▸ hd)
      rw [if_neg hp]
      exact ih hnd.2 h

/-! ## Lemmas about `date_range` -/

theorem mem_date_range {lo hi d : ℤ} : d ∈ date_range lo hi ↔ lo ≤ d ∧ d ≤ hi := by
  constructor
  · intro hd
    rcases List.mem_map.mp hd with ⟨i, hi2, hfn⟩
    rw [List.mem_range] at hi2
    omega
  · intro h
    refine List.mem_map.mpr ⟨(d - lo).toNat, ?_, ?_⟩
    · rw [List.mem_range]
      omega
    · omega

theorem length_date_range (lo hi : ℤ) : (date_range lo hi).length = (hi + 1 - lo).toNat := by
  rw [date_range, List.length_map, List.length_range]

theorem nodup_date_range (lo hi : ℤ) : (date_range lo hi).Nodup := by
  rw [date_range]
  refine List.Nodup.map ?_ (List.nodup_range _)
  intro a b hab
  simp only [add_right_inj, Nat.cast_inj] at hab
  exact hab

theorem sorted_lt_date_range (lo hi : ℤ) : List.Sorted (· < ·) (date_range lo hi) := by
  rw [List.Sorted, date_range, List.pairwise_map]
  refine (List.pairwise_lt_range _).imp ?_
  intro a b hab
  omega

/-! ## Lemmas about folded minima and maxima (`index.min()` / `index.max()`) -/

theorem foldl_min_le_init : ∀ (l : List ℤ) (a : ℤ), l.foldl min a ≤ a
  | [], a => le_refl a
  | b :: l, a => le_trans (foldl_min_le_init l (min a b)) (min_le_left a b)

theorem foldl_min_le_mem : ∀ (l : List ℤ) (a x : ℤ), x ∈ l → l.foldl min a ≤ x
  | b :: l, a, x, hx => by
    rcases List.mem_cons.mp hx with h | h
    · subst h
      exact le_trans (foldl_min_le_init l (min a x)) (min_le_right a x)
    · exact foldl_min_le_mem l (min a b) x h

theorem foldl_min_mem : ∀ (l : List ℤ) (a : ℤ), l.foldl min a = a ∨ l.foldl min a ∈ l
  | [], _ => Or.inl rfl
  | b :: l, a => by
    rcases foldl_min_mem l (min a b) with h | h
    · rcases min_choice a b with h2 | h2
      · exact Or.inl (by rw [List.foldl_cons, h, h2])
      · refine Or.inr ?_
        rw [List.foldl_cons, h, h2]
        exact List.mem_cons_self _ _
    · refine Or.inr (List.mem_cons_of_mem _ ?_)
      rw [List.foldl_cons]
      exact h

theorem init_le_foldl_max : ∀ (l : List ℤ) (a : ℤ), a ≤ l.foldl max a
  | [], a => le_refl a
  | b :: l, a => le_trans (le_max_left a b) (init_le_foldl_max l (max a b))

theorem mem_le_foldl_max : ∀ (l : List ℤ) (a x : ℤ), x ∈ l → x ≤ l.foldl max a
  | b :: l, a, x, hx => by
    rcases List.mem_cons.mp hx with h | h
    · subst h
      exact le_trans (le_max_right a x) (init_le_foldl_max l (max a x))
    · exact mem_le_foldl_max l (max a b) x h

theorem foldl_max_mem : ∀ (l : List ℤ) (a : ℤ), l.foldl max a = a ∨ l.foldl max a ∈ l
  | [], _ => Or.inl rfl
  | b :: l, a => by
    rcases foldl_max_mem l (max a b) with h | h
    · rcases max_choice a b with h2 | h2
      · exact Or.inl (by rw [List.foldl_cons, h, h2])
      · refine Or.inr ?_
        rw [List.foldl_cons, h, h2]
        exact List.mem_cons_self _ _
    · refine Or.inr (List.mem_cons_of_mem _ ?_)
      rw [List.foldl_cons]
      exact h

theorem days_min_le {l : List (ℤ × Counts)} {d : ℤ} (h : d ∈ l.map Prod.fst) :
    days_min l ≤ d := by
  cases l with
  | nil => simp at h
  | cons p ps =>
    rw [List.map_cons, List.mem_cons] at h
    rcases h with h | h
    · subst h
      exact foldl_min_le_init _ _
    · exact foldl_min_le_mem _ _ _ h

theorem le_days_max {l : List (ℤ × Counts)} {d : ℤ} (h : d ∈ l.map Prod.fst) :
    d ≤ days_max l := by
  cases l with
  | nil => simp at h
  | cons p ps =>
    rw [List.map_cons, List.mem_cons] at h
    rcases h with h | h
    · subst h
      exact init_le_foldl_max _ _
    · exact mem_le_foldl_max _ _ _ h

theorem days_min_mem {l : List (ℤ × Counts)} (h : l ≠ []) :
    days_min l ∈ l.map Prod.fst := by
  cases l with
  | nil => exact absurd rfl h
  | cons p ps =>
    rw [List.map_cons]
    rcases foldl_min_mem (ps.map Prod.fst) p.1 with h2 | h2
    · rw [days_min, h2]
      exact List.mem_cons_self _ _
    · exact List.mem_cons_of_mem _ h2

theorem days_max_mem {l : List (ℤ × Counts)} (h : l ≠ []) :
    days_max l ∈ l.map Prod.fst := by
  cases l with
  | nil => exact absurd rfl h
  | cons p ps =>
    rw [List.map_cons]
    rcases foldl_max_mem (ps.map Prod.fst) p.1 with h2 | h2
    · rw [days_max, h2]
      exact List.mem_cons_self _ _
    · exact List.mem_cons_of_mem _ h2

theorem days_min_eq_of_mem_iff {l₁ l₂ : List (ℤ × Counts)} (h₁ : l₁ ≠ []) (h₂ : l₂ ≠ [])
    (h : ∀ d, d ∈ l₁.map Prod.fst ↔ d ∈ l₂.map Prod.fst) : days_min l₁ = days_min l₂ :=
  le_antisymm (days_min_le ((h _).mpr (days_min_mem h₂)))
    (days_min_le ((h _).mp (days_min_mem h₁)))

theorem days_max_eq_of_mem_iff {l₁ l₂ : List (ℤ × Counts)} (h₁ : l₁ ≠ []) (h₂ : l₂ ≠ [])
    (h : ∀ d, d ∈ l₁.map Prod.fst ↔ d ∈ l₂.map Prod.fst) : days_max l₁ = days_max l₂ :=
  le_antisymm (le_days_max ((h _).mp (days_max_mem h₁)))
    (le_days_max ((h _).mpr (days_max_mem h₂)))

/-! ## Lemmas about `group_sum` and `densify` -/

theorem mem_sorted_days {l : List (ℤ × Counts)} {d : ℤ} :
    d ∈ sorted_days l ↔ d ∈ l.map Prod.fst := by
  simp [sorted_days, List.mem_dedup]

theorem nodup_sorted_days (l : List (ℤ × Counts)) : (sorted_days l).Nodup :=
  (List.perm_insertionSort _ _).nodup_iff.mpr (List.nodup_dedup _)

theorem sorted_sorted_days (l : List (ℤ × Counts)) :
    List.Sorted (· ≤ ·) (sorted_days l) :=
  List.sorted_insertionSort _ _

theorem dict_get_map_fn {β : Type} {ds : List ℤ} {f : ℤ → β} {d : ℤ} :
    dict_get (ds.map (fun x => (x, f x))) d = if d ∈ ds then some (f d) else none := by
  induction ds with
  | nil => simp [dict_get]
  | cons a as ih =>
    by_cases ha : a = d
    · subst ha
      simp [dict_get]
    · have hda : ¬ d = a := fun h => ha h.symm
      simp [dict_get, ha, ih, List.mem_cons, hda]

theorem keys_group_sum (l : List (ℤ × Counts)) :
    (group_sum l).map Prod.fst = sorted_days l := by
  simp [group_sum, List.map_map, Function.comp_def]

theorem dict_get_group_sum (l : List (ℤ × Counts)) (d : ℤ) :
    dict_get (group_sum l) d =
      if d ∈ l.map Prod.fst then some (day_sum l d) else none := by
  rw [group_sum, dict_get_map_fn]
  by_cases h : d ∈ l.map Prod.fst <;> simp [mem_sorted_days, h]

theorem group_sum_ne_nil {l : List (ℤ × Counts)} (h : l ≠ []) : group_sum l ≠ [] := by
  cases l with
  | nil => exact absurd rfl h
  | cons p ps =>
    have hmem : p.1 ∈ sorted_days (p :: ps) := mem_sorted_days.mpr (by simp)
    intro hg
    rw [group_sum] at hg
    rw [List.map_eq_nil_iff] at hg
    rw [hg] at hmem
    simp at hmem

theorem densify_cons (p : ℤ × Counts) (ps : List (ℤ × Counts)) :
    densify (p :: ps) =
      (date_range (days_min (p :: ps)) (days_max (p :: ps))).map
        (fun d => (d, (dict_get (p :: ps) d).getD ⟨0, 0⟩)) := rfl

theorem densify_map_fst {l : List (ℤ × Counts)} (h : l ≠ []) :
    (densify l).map Prod.fst = date_range (days_min l) (days_max l) := by
  cases l with
  | nil => exact absurd rfl h
  | cons p ps => simp [densify_cons, List.map_map, Function.comp_def]

theorem dict_get_densify {l : List (ℤ × Counts)} (h : l ≠ []) {d : ℤ}
    (h1 : days_min l ≤ d) (h2 : d ≤ days_max l) :
    dict_get (densify l) d = some ((dict_get l d).getD ⟨0, 0⟩) := by
  cases l with
  | nil => exact absurd rfl h
  | cons p ps =>
    rw [densify_cons, dict_get_map_fn, if_pos (mem_date_range.mpr ⟨h1, h2⟩)]

/-- Central lemma about `_create_cumulative_dataframe` once the merged frame
is known: within `[index.min(), index.max()]` the persisted row of a date is
the sum of the frame's rows for that date (zero where the frame has none). -/
theorem create_cumulative_get (old_data : Option (List (ℤ × Counts)))
    (data : List (ℤ × Counts)) (h : cumul_frame old_data data ≠ []) {d : ℤ}
    (h1 : days_min (cumul_frame old_data data) ≤ d)
    (h2 : d ≤ days_max (cumul_frame old_data data)) :
    dict_get (create_cumulative_dataframe old_data data) d
      = some (day_sum (cumul_frame old_data data) d) := by
  have hg : group_sum (cumul_frame old_data data) ≠ [] := group_sum_ne_nil h
  have hkeys : ∀ x, x ∈ (group_sum (cumul_frame old_data data)).map Prod.fst ↔
      x ∈ (cumul_frame old_data data).map Prod.fst := by
    intro x
    rw [keys_group_sum]
    exact mem_sorted_days
  have hmin : days_min (group_sum (cumul_frame old_data data))
      = days_min (cumul_frame old_data data) :=
    days_min_eq_of_mem_iff hg h hkeys
  have hmax : days_max (group_sum (cumul_frame old_data data))
      = days_max (cumul_frame old_data data) :=
    days_max_eq_of_mem_iff hg h hkeys
  rw [create_cumulative_dataframe,
    dict_get_densify hg (by rw [hmin]; exact h1) (by rw [hmax]; exact h2),
    dict_get_group_sum]
  by_cases hm : d ∈ (cumul_frame old_data data).map Prod.fst
  · simp [hm]
  · simp [hm, day_sum_eq_zero hm]

/-- Keys of the same day-range of the densified table. -/
theorem create_cumulative_map_fst (old_data : Option (List (ℤ × Counts)))
    (data : List (ℤ × Counts)) (h : cumul_frame old_data data ≠ []) :
    (create_cumulative_dataframe old_data data).map Prod.fst
      = date_range (days_min (cumul_frame old_data data))
          (days_max (cumul_frame old_data data)) := by
  have hg : group_sum (cumul_frame old_data data) ≠ [] := group_sum_ne_nil h
  have hkeys : ∀ x, x ∈ (group_sum (cumul_frame old_data data)).map Prod.fst ↔
      x ∈ (cumul_frame old_data data).map Prod.fst := by
    intro x
    rw [keys_group_sum]
    exact mem_sorted_days
  rw [create_cumulative_dataframe, densify_map_fst hg,
    days_min_eq_of_mem_iff hg h hkeys, days_max_eq_of_mem_iff hg h hkeys]

/-! ## The merged dict: `Timestamp` keys versus `date` keys -/

theorem merge_dict_of_disjoint {κ : Type} [DecidableEq κ] :
    ∀ (new_data old_data : List (κ × Counts)),
      (∀ k ∈ new_data.map Prod.fst, k ∉ old_data.map Prod.fst) →
      (new_data.map Prod.fst).Nodup →
      merge_dict old_data new_data = old_data ++ new_data
  | [], old, _, _ => by simp [merge_dict]
  | kv :: rest, old, hdisj, hnd => by
    rw [List.map_cons, List.nodup_cons] at hnd
    have hk : kv.1 ∉ old.map Prod.fst := hdisj kv.1 (by simp)
    have hget : dict_get old kv.1 = none := dict_get_eq_none.mpr hk
    have hstep : merge_dict old (kv :: rest) = merge_dict (old ++ [kv]) rest := by
      show List.foldl _ _ (kv :: rest) = _
      rw [List.foldl_cons]
      congr 1
      show (match dict_get old kv.1 with
        | none => dict_set old kv.1 kv.2
        | some w =>
          if w.total < kv.2.total ∨ w.unique < kv.2.unique then
            dict_set old kv.1 kv.2
          else old) = old ++ [kv]
      rw [hget]
      exact dict_set_of_not_mem _ hk
    rw [hstep, merge_dict_of_disjoint rest (old ++ [kv]) ?_ hnd.2]
    · simp
    · intro k hkr
      rw [List.map_append, List.mem_append]
      push_neg
      refine ⟨hdisj k (List.mem_cons_of_mem _ hkr), ?_⟩
      intro hk1
      simp at hk1
      exact hnd.1 (hk1 ▸ hkr)

theorem cumul_frame_none (data : List (ℤ × Counts)) : cumul_frame none data = data := by
  simp [cumul_frame, List.map_map, Function.comp_def, PyDate.day]

theorem cumul_frame_some {old data : List (ℤ × Counts)}
    (hnd : (data.map Prod.fst).Nodup) :
    cumul_frame (some old) data = old ++ data := by
  have hinj : Function.Injective PyDate.pyDate := fun a b h => by
    injection h
  have hnd2 : ((data.map (fun p => (PyDate.pyDate p.1, p.2))).map Prod.fst).Nodup := by
    rw [List.map_map]
    have : (Prod.fst ∘ fun p : ℤ × Counts => (PyDate.pyDate p.1, p.2))
        = PyDate.pyDate ∘ Prod.fst := rfl
    rw [this, ← List.map_map]
    exact hnd.map hinj
  have hdisj : ∀ k ∈ (data.map (fun p => (PyDate.pyDate p.1, p.2))).map Prod.fst,
      k ∉ (old.map (fun p => (PyDate.ts p.1, p.2))).map Prod.fst := by
    intro k hk hmem
    rw [List.map_map] at hk hmem
    rcases List.mem_map.mp hk with ⟨p, _, hp⟩
    rcases List.mem_map.mp hmem with ⟨q, _, hq⟩
    rw [← hp] at hq
    simp at hq
  rw [cumul_frame, merge_dict_of_disjoint _ _ hdisj hnd2, List.map_append]
  congr 1 <;> simp [List.map_map, Function.comp_def, PyDate.day]

/-! ## Lemmas about `_get_counts` -/

theorem event_agg_nil (d : ℤ) : event_agg [] d = ⟨0, 0⟩ := rfl

theorem event_agg_cons (e : MetricEvent) (es : List MetricEvent) (d : ℤ) :
    event_agg (e :: es) d =
      if e.day = d then (⟨e.count, e.uniques⟩ : Counts) + event_agg es d
      else event_agg es d := by
  by_cases h : e.day = d <;> simp [event_agg, h, Counts.add_def]

theorem event_agg_zero {es : List MetricEvent} {d : ℤ}
    (h : d ∉ es.map MetricEvent.day) : event_agg es d = ⟨0, 0⟩ := by
  have hf : es.filter (fun e => decide (e.day = d)) = [] := by
    rw [List.filter_eq_nil_iff]
    intro e he hdec
    exact h (List.mem_map.mpr ⟨e, he, by simpa using hdec⟩)
  simp [event_agg, hf]

theorem accum_step_get (acc : List (ℤ × Counts)) (e : MetricEvent) (d : ℤ) :
    dict_get (accum_step acc e) d =
      if d = e.day then
        some ((dict_get acc e.day).getD ⟨0, 0⟩ + ⟨e.count, e.uniques⟩)
      else dict_get acc d := by
  rw [accum_step]
  cases hacc : dict_get acc e.day with
  | none =>
    rw [dict_get_dict_set]
    simp [hacc, Counts.zero_add]
  | some w =>
    rw [dict_get_dict_set]
    simp [hacc, Counts.add_def]

theorem accum_step_keys (acc : List (ℤ × Counts)) (e : MetricEvent) :
    (accum_step acc e).map Prod.fst =
      if e.day ∈ acc.map Prod.fst then acc.map Prod.fst
      else acc.map Prod.fst ++ [e.day] := by
  rw [accum_step]
  cases hacc : dict_get acc e.day <;> rw [keys_dict_set]

theorem accum_step_nodup {acc : List (ℤ × Counts)}
    (h : (acc.map Prod.fst).Nodup) (e : MetricEvent) :
    ((accum_step acc e).map Prod.fst).Nodup := by
  rw [accum_step]
  cases dict_get acc e.day <;> exact nodup_keys_dict_set h

theorem accum_fold_get :
    ∀ (es : List MetricEvent) (acc : List (ℤ × Counts)) (d : ℤ),
      dict_get (es.foldl accum_step acc) d =
        if d ∈ acc.map Prod.fst ∨ d ∈ es.map MetricEvent.day then
          some ((dict_get acc d).getD ⟨0, 0⟩ + event_agg es d)
        else none
  | [], acc, d => by
    by_cases h : d ∈ acc.map Prod.fst
    · obtain ⟨w, hw⟩ : ∃ w, dict_get acc d = some w := by
        cases hg : dict_get acc d with
        | none => exact absurd (dict_get_eq_none.mp hg) (by simpa using h)
        | some w => exact ⟨w, rfl⟩
      simp [h, hw, event_agg_nil, Counts.add_zero]
    · have hg : dict_get acc d = none := dict_get_eq_none.mpr h
      simp [h, hg]
  | e :: es, acc, d => by
    rw [List.foldl_cons, accum_fold_get es _ d]
    by_cases hd : d = e.day
    · have hk : d ∈ (accum_step acc e).map Prod.fst := by
        rw [accum_step_keys]
        by_cases hmem : e.day ∈ acc.map Prod.fst
        · rw [if_pos hmem, hd]
          exact hmem
        · rw [if_neg hmem, List.mem_append]
          exact Or.inr (by simp [hd])
      rw [if_pos (Or.inl hk),
        if_pos (Or.inr (show d ∈ (e :: es).map MetricEvent.day by simp [hd])),
        accum_step_get, if_pos hd, event_agg_cons, if_pos hd.symm, hd]
      simp only [Option.getD_some]
      rw [Counts.add_assoc]
    · have hstep : dict_get (accum_step acc e) d = dict_get acc d := by
        rw [accum_step_get, if_neg hd]
      have hkeys : d ∈ (accum_step acc e).map Prod.fst ↔ d ∈ acc.map Prod.fst := by
        rw [accum_step_keys]
        by_cases hmem : e.day ∈ acc.map Prod.fst
        · simp [hmem]
        · simp [hmem, List.mem_append, hd]
      have hagg : event_agg (e :: es) d = event_agg es d := by
        rw [event_agg_cons, if_neg (fun h => hd h.symm)]
      have hdays : (d ∈ (e :: es).map MetricEvent.day) ↔ d ∈ es.map MetricEvent.day := by
        rw [List.map_cons, List.mem_cons]
        simp [hd]
      simp only [hstep, hkeys, hagg, hdays]

theorem accumulate_counts_get (es : List MetricEvent) (d : ℤ) :
    dict_get (accumulate_counts es) d =
      if d ∈ es.map MetricEvent.day then some (event_agg es d) else none := by
  rw [accumulate_counts, accum_fold_get]
  by_cases h : d ∈ es.map MetricEvent.day <;>
    simp [h, dict_get, Counts.zero_add]

theorem fill_step_get (acc : List (ℤ × Counts)) (d x : ℤ) :
    dict_get (fill_step acc d) x =
      if x = d ∧ d ∉ acc.map Prod.fst then some ⟨0, 0⟩ else dict_get acc x := by
  rw [fill_step]
  by_cases hp : (dict_get acc d).isSome
  · have hd : d ∈ acc.map Prod.fst := dict_get_isSome.mp hp
    simp [hp, hd]
  · have hd : d ∉ acc.map Prod.fst := fun hm => hp (dict_get_isSome.mpr hm)
    rw [if_neg hp, dict_get_dict_set]
    by_cases hx : x = d <;> simp [hx, hd]

theorem fill_step_nodup {acc : List (ℤ × Counts)}
    (h : (acc.map Prod.fst).Nodup) (d : ℤ) :
    ((fill_step acc d).map Prod.fst).Nodup := by
  rw [fill_step]
  split
  · exact h
  · exact nodup_keys_dict_set h

theorem fill_fold_get :
    ∀ (ds : List ℤ) (acc : List (ℤ × Counts)) (x : ℤ),
      dict_get (ds.foldl fill_step acc) x =
        match dict_get acc x with
        | some w => some w
        | none => if x ∈ ds then some ⟨0, 0⟩ else none
  | [], acc, x => by cases hacc : dict_get acc x <;> simp [hacc]
  | d :: ds, acc, x => by
    rw [List.foldl_cons, fill_fold_get ds _ x, fill_step_get]
    by_cases hx : x = d
    · subst hx
      cases hacc : dict_get acc x with
      | some w =>
        have hmem : x ∈ acc.map Prod.fst :=
          dict_get_isSome.mp (by rw [hacc]; rfl)
        simp [hmem, hacc]
      | none =>
        have hmem : x ∉ acc.map Prod.fst := dict_get_eq_none.mp hacc
        simp [hmem, hacc]
    · have hcond : ¬ (x = d ∧ d ∉ acc.map Prod.fst) := fun hc => hx hc.1
      rw [if_neg hcond]
      cases hacc : dict_get acc x with
      | some w => simp
      | none => simp [List.mem_cons, hx]

theorem get_counts_get (es : List MetricEvent) (today d : ℤ) :
    dict_get (get_counts es today) d =
      if d ∈ es.map MetricEvent.day then some (event_agg es d)
      else if today - 13 ≤ d ∧ d ≤ today then some ⟨0, 0⟩ else none := by
  rw [get_counts, fill_range, fill_fold_get, accumulate_counts_get]
  by_cases h : d ∈ es.map MetricEvent.day
  · simp [h]
  · simp [h, mem_date_range]

theorem get_counts_keys (es : List MetricEvent) (today d : ℤ) :
    d ∈ (get_counts es today).map Prod.fst ↔
      d ∈ es.map MetricEvent.day ∨ (today - 13 ≤ d ∧ d ≤ today) := by
  rw [← dict_get_isSome, get_counts_get]
  by_cases h1 : d ∈ es.map MetricEvent.day <;>
    by_cases h2 : today - 13 ≤ d ∧ d ≤ today <;> simp [h1, h2]

theorem get_counts_nodup (es : List MetricEvent) (today : ℤ) :
    ((get_counts es today).map Prod.fst).Nodup := by
  rw [get_counts, fill_range]
  have hacc : ((accumulate_counts es).map Prod.fst).Nodup := by
    rw [accumulate_counts]
    generalize hbase : ([] : List (ℤ × Counts)) = base
    have hb : (base.map Prod.fst).Nodup := by rw [← hbase]; simp
    clear hbase
    induction es generalizing base with
    | nil => exact hb
    | cons e es ih => exact ih _ (accum_step_nodup hb e)
  generalize hbase : accumulate_counts es = base at hacc
  clear hbase
  induction date_range (today - 13) today generalizing base with
  | nil => exact hacc
  | cons d ds ih => exact ih _ (fill_step_nodup hacc d)

/-- A value of `get_counts` is always the per-day aggregate of the events. -/
theorem get_counts_get_of_mem {es : List MetricEvent} {today d : ℤ}
    (h : d ∈ (get_counts es today).map Prod.fst) :
    dict_get (get_counts es today) d = some (event_agg es d) := by
  rw [get_counts_get]
  rcases (get_counts_keys es today d).mp h with h1 | h2
  · rw [if_pos h1]
  · by_cases h1 : d ∈ es.map MetricEvent.day
    · rw [if_pos h1]
    · rw [if_neg h1, if_pos h2, event_agg_zero h1]

/-- `dict_get` only depends on the set of pairs when keys are unduplicated. -/
theorem dict_get_of_perm {κ β : Type} [DecidableEq κ] {l₁ l₂ : List (κ × β)}
    (hp : l₁.Perm l₂) (hnd : (l₁.map Prod.fst).Nodup) (k : κ) :
    dict_get l₁ k = dict_get l₂ k := by
  have hnd₂ : (l₂.map Prod.fst).Nodup := ((hp.map Prod.fst).nodup_iff).mp hnd
  cases hg : dict_get l₂ k with
  | some v =>
    exact dict_get_eq_some_of_mem hnd (hp.mem_iff.mpr (dict_get_mem hg))
  | none =>
    rw [dict_get_eq_none]
    intro hk
    exact (dict_get_eq_none.mp hg) (((hp.map Prod.fst).mem_iff).mp hk)

/-! ## Lemmas about the ranked-list reconciler -/

theorem last_row_foldl (k : Option String) :
    ∀ (rows : List CombinedRow) (a : Option CombinedRow),
      rows.foldl (fun acc r => if r.key = k then some r else acc) a =
        match last_row_with k rows with
        | some r => some r
        | none => a
  | [], a => by simp [last_row_with]
  | r :: rs, a => by
    rw [List.foldl_cons, last_row_foldl k rs _]
    have hrec : last_row_with k (r :: rs) =
        match last_row_with k rs with
        | some q => some q
        | none => if r.key = k then some r else none := by
      show List.foldl _ (if r.key = k then some r else none) rs = _
      rw [last_row_foldl k rs _]
    rw [hrec]
    cases last_row_with k rs with
    | some q => rfl
    | none =>
      by_cases hr : r.key = k <;> simp [hr]

theorem last_row_with_cons (k : Option String) (r : CombinedRow) (rs : List CombinedRow) :
    last_row_with k (r :: rs) =
      match last_row_with k rs with
      | some q => some q
      | none => if r.key = k then some r else none := by
  show List.foldl _ (if r.key = k then some r else none) rs = _
  rw [last_row_foldl k rs _]

theorem last_row_with_isSome (k : Option String) (rows : List CombinedRow) :
    (last_row_with k rows).isSome = true ↔ k ∈ rows.map CombinedRow.key := by
  induction rows with
  | nil => simp [last_row_with]
  | cons r rs ih =>
    rw [last_row_with_cons, List.map_cons, List.mem_cons]
    cases h : last_row_with k rs with
    | some q =>
      have hk : k ∈ rs.map CombinedRow.key := by
        rw [← ih, h]
        rfl
      simp [hk]
    | none =>
      have hk : k ∉ rs.map CombinedRow.key := by
        rw [← ih, h]
        simp
      by_cases hr : r.key = k
      · simp [hr, hk]
      · have hkr : ¬ k = r.key := fun hh => hr hh.symm
        simp [hr, hk, hkr]

theorem last_row_with_mem {k : Option String} {rows : List CombinedRow} {r : CombinedRow}
    (h : last_row_with k rows = some r) : r ∈ rows ∧ r.key = k := by
  induction rows with
  | nil => simp [last_row_with] at h
  | cons p ps ih =>
    rw [last_row_with_cons] at h
    cases h2 : last_row_with k ps with
    | some q =>
      rw [h2] at h
      simp only [] at h
      injection h with h3
      subst h3
      rcases ih h2 with ⟨hm, hk⟩
      exact ⟨List.mem_cons_of_mem _ hm, hk⟩
    | none =>
      rw [h2] at h
      simp only [] at h
      by_cases hp : p.key = k
      · rw [if_pos hp] at h
        injection h with h3
        subst h3
        exact ⟨List.mem_cons_self _ _, hp⟩
      · rw [if_neg hp] at h
        exact absurd h (by simp)

theorem last_row_with_append (k : Option String) (l₁ l₂ : List CombinedRow) :
    last_row_with k (l₁ ++ l₂) =
      match last_row_with k l₂ with
      | some r => some r
      | none => last_row_with k l₁ := by
  show List.foldl _ none (l₁ ++ l₂) = _
  rw [List.foldl_append]
  exact last_row_foldl k l₂ _

theorem dedup_subset {rows : List CombinedRow} {r : CombinedRow}
    (h : r ∈ drop_duplicates_keep_last rows) : r ∈ rows := by
  induction rows with
  | nil => simp [drop_duplicates_keep_last] at h
  | cons p ps ih =>
    rw [drop_duplicates_keep_last] at h
    by_cases hp : p.key ∈ ps.map CombinedRow.key
    · rw [if_pos hp] at h
      exact List.mem_cons_of_mem _ (ih h)
    · rw [if_neg hp] at h
      rcases List.mem_cons.mp h with h2 | h2
      · exact h2 ▸ List.mem_cons_self _ _
      · exact List.mem_cons_of_mem _ (ih h2)

theorem mem_dedup_iff {rows : List CombinedRow} {r : CombinedRow} :
    r ∈ drop_duplicates_keep_last rows ↔ last_row_with r.key rows = some r := by
  induction rows with
  | nil => simp [drop_duplicates_keep_last, last_row_with]
  | cons p ps ih =>
    rw [drop_duplicates_keep_last, last_row_with_cons]
    by_cases hp : p.key ∈ ps.map CombinedRow.key
    · rw [if_pos hp]
      cases h2 : last_row_with r.key ps with
      | some q => simp [ih, h2]
      | none =>
        by_cases hpr : p.key = r.key
        · have hmem : r.key ∈ ps.map CombinedRow.key := hpr ▸ hp
          have h3 := (last_row_with_isSome r.key ps).mpr hmem
          rw [h2] at h3
          simp at h3
        · simp [ih, h2, hpr]
    · rw [if_neg hp, List.mem_cons]
      cases h2 : last_row_with r.key ps with
      | some q =>
        simp only []
        constructor
        · rintro (rfl | hm)
          · have hmem : r.key ∈ ps.map CombinedRow.key :=
              (last_row_with_isSome r.key ps).mp (by rw [h2]; rfl)
            exact absurd hmem hp
          · rw [ih] at hm
            rw [hm] at h2
            exact h2.symm ▸ rfl
        · intro h3
          injection h3 with h4
          exact Or.inr (ih.mpr (h4 ▸ h2))
      | none =>
        simp only []
        by_cases hpr : p.key = r.key
        · rw [if_pos hpr]
          constructor
          · rintro (rfl | hm)
            · rfl
            · rw [ih, h2] at hm
              exact absurd hm (by simp)
          · intro h3
            injection h3 with h4
            exact Or.inl h4.symm
        · rw [if_neg hpr]
          constructor
          · rintro (rfl | hm)
            · exact absurd rfl hpr
            · rw [ih, h2] at hm
              exact absurd hm (by simp)
          · intro h3
            exact absurd h3 (by simp)

theorem keys_dedup_nodup (rows : List CombinedRow) :
    ((drop_duplicates_keep_last rows).map CombinedRow.key).Nodup := by
  induction rows with
  | nil => simp [drop_duplicates_keep_last]
  | cons p ps ih =>
    rw [drop_duplicates_keep_last]
    by_cases hp : p.key ∈ ps.map CombinedRow.key
    · rw [if_pos hp]
      exact ih
    · rw [if_neg hp, List.map_cons, List.nodup_cons]
      refine ⟨?_, ih⟩
      intro hmem
      rcases List.mem_map.mp hmem with ⟨q, hq, hqk⟩
      exact hp (hqk ▸ List.mem_map.mpr ⟨q, dedup_subset hq, rfl⟩)

theorem dedup_of_nodup_keys {rows : List CombinedRow}
    (h : (rows.map CombinedRow.key).Nodup) : drop_duplicates_keep_last rows = rows := by
  induction rows with
  | nil => rfl
  | cons p ps ih =>
    rw [List.map_cons, List.nodup_cons] at h
    rw [drop_duplicates_keep_last, if_neg h.1, ih h.2]

instance : IsTotal CombinedRow (fun a b => b.count ≤ a.count) :=
  ⟨fun a b => le_total b.count a.count⟩

instance : IsTrans CombinedRow (fun a b => b.count ≤ a.count) :=
  ⟨fun _ _ _ hab hbc => le_trans hbc hab⟩

instance : IsTotal (ℤ × Counts) (fun p q => p.1 ≤ q.1) :=
  ⟨fun a b => le_total a.1 b.1⟩

instance : IsTrans (ℤ × Counts) (fun p q => p.1 ≤ q.1) :=
  ⟨fun _ _ _ hab hbc => le_trans hab hbc⟩

/-- The conflict rule written in `_merge_dict` (lines 172-177), in isolation
with a uniform key type: an existing entry is overwritten by the new row
exactly when the new row is strictly greater in some column.  This rule is
dead code in `_create_cumulative_dataframe` because there the old keys are
`Timestamp`s and the new keys are `date`s. -/
theorem merge_dict_single {κ : Type} [DecidableEq κ] (old_data : List (κ × Counts))
    (k : κ) (v w : Counts) (h : dict_get old_data k = some w) :
    merge_dict old_data [(k, v)] =
      if w.total < v.total ∨ w.unique < v.unique then dict_set old_data k v
      else old_data := by
  show List.foldl _ old_data [(k, v)] = _
  rw [List.foldl_cons, List.foldl_nil]
  simp only [h]

/-! ## Claim theorems -/

/-- Claim C1 (confirmed): for every prior cumulative table and newly fetched
aggregate, and every date present in both, the merged value's total and
unique fields are each at least the prior value's.  This holds because the
code sums the old and the new row of a shared date (the `_merge_dict`
comparison never identifies their keys) and counts are non-negative. -/
theorem C1_cumulative_monotonicity (old_data data : List (ℤ × Counts))
    (hold : (old_data.map Prod.fst).Nodup) (hdata : (data.map Prod.fst).Nodup)
    (d : ℤ) (v w : Counts) (hv : (d, v) ∈ old_data) (hw : (d, w) ∈ data) :
    ∃ u : Counts,
      dict_get (create_cumulative_dataframe (some old_data) data) d = some u ∧
      v.total ≤ u.total ∧ v.unique ≤ u.unique := by
  have hframe : cumul_frame (some old_data) data = old_data ++ data :=
    cumul_frame_some hdata
  have hne : cumul_frame (some old_data) data ≠ [] := by
    rw [hframe]
    intro h
    rw [List.append_eq_nil] at h
    rw [h.1] at hv
    simp at hv
  have hdmem : d ∈ (cumul_frame (some old_data) data).map Prod.fst := by
    rw [hframe, List.map_append, List.mem_append]
    exact Or.inl (List.mem_map.mpr ⟨(d, v), hv, rfl⟩)
  refine ⟨day_sum (cumul_frame (some old_data) data) d,
    create_cumulative_get _ _ hne (days_min_le hdmem) (le_days_max hdmem), ?_, ?_⟩
  · rw [hframe, day_sum_append, day_sum_eq_of_mem hold hv,
      day_sum_eq_of_mem hdata hw, Counts.add_def]
    exact Nat.le_add_right _ _
  · rw [hframe, day_sum_append, day_sum_eq_of_mem hold hv,
      day_sum_eq_of_mem hdata hw, Counts.add_def]
    exact Nat.le_add_right _ _

/-- Witness for C1: prior row `(5, 10)` and new row `(6, 2)` on the same
date merge to a row dominating the prior one. -/
theorem C1_cumulative_monotonicity_witness :
    ∃ u : Counts,
      dict_get (create_cumulative_dataframe
        (some [((0 : ℤ), (⟨5, 10⟩ : Counts))]) [((0 : ℤ), (⟨6, 2⟩ : Counts))]) 0
        = some u ∧ (5 : ℕ) ≤ u.total ∧ (10 : ℕ) ≤ u.unique :=
  C1_cumulative_monotonicity [(0, ⟨5, 10⟩)] [(0, ⟨6, 2⟩)] (by decide) (by decide)
    0 ⟨5, 10⟩ ⟨6, 2⟩ (by decide) (by decide)

/-- Claim C2 (code bug): the claim says that when the old row dominates the
new row field-wise (`10 ≥ 3` and `8 ≥ 2`) the old row is kept.  The code
instead returns `(13, 10)` = old + new: the `Timestamp` keys of the parsed
old table never equal the `datetime.date` keys of the new aggregate, so
`_merge_dict`'s keep-or-replace comparison never fires and the subsequent
`groupby(index).sum()` adds the two rows for the same calendar date. -/
theorem C2_merge_rule_code_bug :
    create_cumulative_dataframe (some [((0 : ℤ), (⟨10, 8⟩ : Counts))])
        [((0 : ℤ), (⟨3, 2⟩ : Counts))] = [((0 : ℤ), (⟨13, 10⟩ : Counts))] ∧
    create_cumulative_dataframe (some [((0 : ℤ), (⟨10, 8⟩ : Counts))])
        [((0 : ℤ), (⟨3, 2⟩ : Counts))] ≠ [((0 : ℤ), (⟨10, 8⟩ : Counts))] := by
  constructor
  · decide
  · decide

/-- Claim C9 (confirmed): a date present only in the old table keeps its
row unchanged through the merge. -/
theorem C9_frame_unchanged (old_data data : List (ℤ × Counts))
    (hold : (old_data.map Prod.fst).Nodup) (hdata : (data.map Prod.fst).Nodup)
    (d : ℤ) (v : Counts) (hv : (d, v) ∈ old_data)
    (hd : d ∉ data.map Prod.fst) :
    dict_get (create_cumulative_dataframe (some old_data) data) d = some v := by
  have hframe : cumul_frame (some old_data) data = old_data ++ data :=
    cumul_frame_some hdata
  have hne : cumul_frame (some old_data) data ≠ [] := by
    rw [hframe]
    intro h
    rw [List.append_eq_nil] at h
    rw [h.1] at hv
    simp at hv
  have hdmem : d ∈ (cumul_frame (some old_data) data).map Prod.fst := by
    rw [hframe, List.map_append, List.mem_append]
    exact Or.inl (List.mem_map.mpr ⟨(d, v), hv, rfl⟩)
  rw [create_cumulative_get _ _ hne (days_min_le hdmem) (le_days_max hdmem),
    hframe, day_sum_append, day_sum_eq_of_mem hold hv, day_sum_eq_zero hd,
    Counts.add_zero]

/-- Witness for C9: the date `0` is untouched by the new aggregate and keeps
its row `(3, 4)`. -/
theorem C9_frame_unchanged_witness :
    dict_get (create_cumulative_dataframe
      (some [((0 : ℤ), (⟨3, 4⟩ : Counts)), ((1 : ℤ), (⟨5, 6⟩ : Counts))])
      [((1 : ℤ), (⟨9, 9⟩ : Counts))]) 0 = some ⟨3, 4⟩ :=
  C9_frame_unchanged [(0, ⟨3, 4⟩), (1, ⟨5, 6⟩)] [(1, ⟨9, 9⟩)] (by decide)
    (by decide) 0 ⟨3, 4⟩ (by decide) (by decide)

/-- Claim C6 (corrected), counterexample: on a first run with aggregate
dates `{0, 2}`, the written table is not the sparse aggregate: it also
contains the zero-filled date `1`, because the `groupby` + `reindex`
densification (lines 151-157) runs on the first-run branch as well. -/
theorem C6_first_run_counterexample :
    create_cumulative_dataframe none
        [((0 : ℤ), (⟨1, 1⟩ : Counts)), ((2 : ℤ), (⟨3, 3⟩ : Counts))]
      = [(0, ⟨1, 1⟩), (1, ⟨0, 0⟩), (2, ⟨3, 3⟩)] ∧
    ((1 : ℤ), (⟨0, 0⟩ : Counts)) ∈ create_cumulative_dataframe none
        [((0 : ℤ), (⟨1, 1⟩ : Counts)), ((2 : ℤ), (⟨3, 3⟩ : Counts))] ∧
    (1 : ℤ) ∉ ([((0 : ℤ), (⟨1, 1⟩ : Counts)),
        ((2 : ℤ), (⟨3, 3⟩ : Counts))].map Prod.fst) := by
  refine ⟨by decide, by decide, by decide⟩

/-- Claim C6 (corrected, amended): on a first run the cumulative table is
the run's aggregate passed through the same grouping and densification as
the merge path: its dates are exactly the contiguous range from the
aggregate's minimum to its maximum date, dates of the aggregate keep their
values, and dates inside the range that are absent from the aggregate are
zero-filled (so the output is sparse only in not extending beyond that
range). -/
theorem C6_first_run_amended (data : List (ℤ × Counts)) (hne : data ≠ [])
    (hnd : (data.map Prod.fst).Nodup) :
    (create_cumulative_dataframe none data).map Prod.fst
        = date_range (days_min data) (days_max data) ∧
    (∀ d v, (d, v) ∈ data →
      dict_get (create_cumulative_dataframe none data) d = some v) ∧
    (∀ d, days_min data ≤ d → d ≤ days_max data → d ∉ data.map Prod.fst →
      dict_get (create_cumulative_dataframe none data) d = some ⟨0, 0⟩) := by
  have hframe : cumul_frame none data = data := cumul_frame_none data
  have hne' : cumul_frame none data ≠ [] := by
    rw [hframe]
    exact hne
  refine ⟨?_, ?_, ?_⟩
  · rw [create_cumulative_map_fst _ _ hne', hframe]
  · intro d v hv
    have hdmem : d ∈ data.map Prod.fst := List.mem_map.mpr ⟨(d, v), hv, rfl⟩
    rw [create_cumulative_get _ _ hne'
        (by rw [hframe]; exact days_min_le hdmem)
        (by rw [hframe]; exact le_days_max hdmem),
      hframe, day_sum_eq_of_mem hnd hv]
  · intro d h1 h2 hdnm
    rw [create_cumulative_get _ _ hne'
        (by rw [hframe]; exact h1) (by rw [hframe]; exact h2),
      hframe, day_sum_eq_zero hdnm]

/-- Witness for C6's amended statement at the counterexample's input. -/
theorem C6_first_run_amended_witness :
    (create_cumulative_dataframe none
        [((0 : ℤ), (⟨1, 1⟩ : Counts)), ((2 : ℤ), (⟨3, 3⟩ : Counts))]).map Prod.fst
      = date_range
          (days_min [((0 : ℤ), (⟨1, 1⟩ : Counts)), ((2 : ℤ), (⟨3, 3⟩ : Counts))])
          (days_max [((0 : ℤ), (⟨1, 1⟩ : Counts)), ((2 : ℤ), (⟨3, 3⟩ : Counts))]) ∧
    (∀ d v, (d, v) ∈ [((0 : ℤ), (⟨1, 1⟩ : Counts)), ((2 : ℤ), (⟨3, 3⟩ : Counts))] →
      dict_get (create_cumulative_dataframe none
        [((0 : ℤ), (⟨1, 1⟩ : Counts)), ((2 : ℤ), (⟨3, 3⟩ : Counts))]) d = some v) ∧
    (∀ d, days_min [((0 : ℤ), (⟨1, 1⟩ : Counts)), ((2 : ℤ), (⟨3, 3⟩ : Counts))] ≤ d →
      d ≤ days_max [((0 : ℤ), (⟨1, 1⟩ : Counts)), ((2 : ℤ), (⟨3, 3⟩ : Counts))] →
      d ∉ ([((0 : ℤ), (⟨1, 1⟩ : Counts)), ((2 : ℤ), (⟨3, 3⟩ : Counts))].map Prod.fst) →
      dict_get (create_cumulative_dataframe none
        [((0 : ℤ), (⟨1, 1⟩ : Counts)), ((2 : ℤ), (⟨3, 3⟩ : Counts))]) d = some ⟨0, 0⟩) :=
  C6_first_run_amended [(0, ⟨1, 1⟩), (2, ⟨3, 3⟩)] (by decide) (by decide)

/-- Claim C7 (confirmed): after a merge the persisted table's index is the
contiguous ascending range of calendar dates from the merged frame's
minimum to its maximum, each date inside the range carries the sum of all
frame rows with that date (so duplicate date keys are combined by summing),
and dates absent from the frame are filled with `(0, 0)`.  Dates are plain
calendar days (`ℤ`), matching the timezone-naive persisted form. -/
theorem C7_post_merge_normalization (old_data data : List (ℤ × Counts))
    (hne : cumul_frame (some old_data) data ≠ []) :
    (create_cumulative_dataframe (some old_data) data).map Prod.fst
        = date_range (days_min (cumul_frame (some old_data) data))
            (days_max (cumul_frame (some old_data) data)) ∧
    List.Sorted (· < ·)
        ((create_cumulative_dataframe (some old_data) data).map Prod.fst) ∧
    (∀ d, days_min (cumul_frame (some old_data) data) ≤ d →
        d ≤ days_max (cumul_frame (some old_data) data) →
        dict_get (create_cumulative_dataframe (some old_data) data) d
          = some (day_sum (cumul_frame (some old_data) data) d)) ∧
    (∀ d, days_min (cumul_frame (some old_data) data) ≤ d →
        d ≤ days_max (cumul_frame (some old_data) data) →
        d ∉ (cumul_frame (some old_data) data).map Prod.fst →
        dict_get (create_cumulative_dataframe (some old_data) data) d
          = some ⟨0, 0⟩) := by
  refine ⟨create_cumulative_map_fst _ _ hne, ?_,
    fun d h1 h2 => create_cumulative_get _ _ hne h1 h2, ?_⟩
  · rw [create_cumulative_map_fst _ _ hne]
    exact sorted_lt_date_range _ _
  · intro d h1 h2 hnm
    rw [create_cumulative_get _ _ hne h1 h2, day_sum_eq_zero hnm]

/-- Witness for C7 at a frame with a duplicate date and a gap. -/
theorem C7_post_merge_normalization_witness :
    (create_cumulative_dataframe (some [((0 : ℤ), (⟨1, 2⟩ : Counts))])
        [((0 : ℤ), (⟨3, 4⟩ : Counts)), ((2 : ℤ), (⟨5, 6⟩ : Counts))]).map Prod.fst
      = date_range
          (days_min (cumul_frame (some [((0 : ℤ), (⟨1, 2⟩ : Counts))])
            [((0 : ℤ), (⟨3, 4⟩ : Counts)), ((2 : ℤ), (⟨5, 6⟩ : Counts))]))
          (days_max (cumul_frame (some [((0 : ℤ), (⟨1, 2⟩ : Counts))])
            [((0 : ℤ), (⟨3, 4⟩ : Counts)), ((2 : ℤ), (⟨5, 6⟩ : Counts))])) ∧
    List.Sorted (· < ·)
        ((create_cumulative_dataframe (some [((0 : ℤ), (⟨1, 2⟩ : Counts))])
          [((0 : ℤ), (⟨3, 4⟩ : Counts)), ((2 : ℤ), (⟨5, 6⟩ : Counts))]).map Prod.fst) ∧
    (∀ d, days_min (cumul_frame (some [((0 : ℤ), (⟨1, 2⟩ : Counts))])
          [((0 : ℤ), (⟨3, 4⟩ : Counts)), ((2 : ℤ), (⟨5, 6⟩ : Counts))]) ≤ d →
        d ≤ days_max (cumul_frame (some [((0 : ℤ), (⟨1, 2⟩ : Counts))])
          [((0 : ℤ), (⟨3, 4⟩ : Counts)), ((2 : ℤ), (⟨5, 6⟩ : Counts))]) →
        dict_get (create_cumulative_dataframe (some [((0 : ℤ), (⟨1, 2⟩ : Counts))])
          [((0 : ℤ), (⟨3, 4⟩ : Counts)), ((2 : ℤ), (⟨5, 6⟩ : Counts))]) d
          = some (day_sum (cumul_frame (some [((0 : ℤ), (⟨1, 2⟩ : Counts))])
              [((0 : ℤ), (⟨3, 4⟩ : Counts)), ((2 : ℤ), (⟨5, 6⟩ : Counts))]) d)) ∧
    (∀ d, days_min (cumul_frame (some [((0 : ℤ), (⟨1, 2⟩ : Counts))])
          [((0 : ℤ), (⟨3, 4⟩ : Counts)), ((2 : ℤ), (⟨5, 6⟩ : Counts))]) ≤ d →
        d ≤ days_max (cumul_frame (some [((0 : ℤ), (⟨1, 2⟩ : Counts))])
          [((0 : ℤ), (⟨3, 4⟩ : Counts)), ((2 : ℤ), (⟨5, 6⟩ : Counts))]) →
        d ∉ (cumul_frame (some [((0 : ℤ), (⟨1, 2⟩ : Counts))])
          [((0 : ℤ), (⟨3, 4⟩ : Counts)), ((2 : ℤ), (⟨5, 6⟩ : Counts))]).map Prod.fst →
        dict_get (create_cumulative_dataframe (some [((0 : ℤ), (⟨1, 2⟩ : Counts))])
          [((0 : ℤ), (⟨3, 4⟩ : Counts)), ((2 : ℤ), (⟨5, 6⟩ : Counts))]) d
          = some ⟨0, 0⟩) :=
  C7_post_merge_normalization [(0, ⟨1, 2⟩)] [(0, ⟨3, 4⟩), (2, ⟨5, 6⟩)] (by decide)

/-- Claim C8 (code bug): merging the same aggregate twice is claimed to be a
no-op on values; the code instead adds the aggregate again on every merge
(`(1,1)` merged with `(2,2)` gives `(3,3)`, merging `(2,2)` once more gives
`(5,5)`), for the same reason as C2: the keep-or-replace comparison of
`_merge_dict` never fires across the `Timestamp`/`date` key mismatch and
`groupby(...).sum()` adds the rows. -/
theorem C8_idempotence_code_bug :
    create_cumulative_dataframe (some [((0 : ℤ), (⟨1, 1⟩ : Counts))])
        [((0 : ℤ), (⟨2, 2⟩ : Counts))] = [((0 : ℤ), (⟨3, 3⟩ : Counts))] ∧
    create_cumulative_dataframe
        (some (create_cumulative_dataframe (some [((0 : ℤ), (⟨1, 1⟩ : Counts))])
          [((0 : ℤ), (⟨2, 2⟩ : Counts))]))
        [((0 : ℤ), (⟨2, 2⟩ : Counts))] = [((0 : ℤ), (⟨5, 5⟩ : Counts))] ∧
    create_cumulative_dataframe
        (some (create_cumulative_dataframe (some [((0 : ℤ), (⟨1, 1⟩ : Counts))])
          [((0 : ℤ), (⟨2, 2⟩ : Counts))]))
        [((0 : ℤ), (⟨2, 2⟩ : Counts))]
      ≠ create_cumulative_dataframe (some [((0 : ℤ), (⟨1, 1⟩ : Counts))])
          [((0 : ℤ), (⟨2, 2⟩ : Counts))] := by
  refine ⟨by decide, by decide, by decide⟩

/-- Claim C5 (corrected), counterexample: for the ranked reconciler the
first-run output is the raw new list as-is, while reconciling the same list
against an empty history deduplicates and re-sorts it; the two differ
already for a two-row list that is not sorted descending by count. -/
theorem C5_first_run_counterexample :
    create_referral_dataframe none [⟨"a", "", 1, 1⟩, ⟨"b", "", 2, 2⟩]
        = [⟨some "a", "", 1, 1⟩, ⟨some "b", "", 2, 2⟩] ∧
    create_referral_dataframe (some []) [⟨"a", "", 1, 1⟩, ⟨"b", "", 2, 2⟩]
        = [⟨some "b", "", 2, 2⟩, ⟨some "a", "", 1, 1⟩] ∧
    create_referral_dataframe none [⟨"a", "", 1, 1⟩, ⟨"b", "", 2, 2⟩]
        ≠ create_referral_dataframe (some []) [⟨"a", "", 1, 1⟩, ⟨"b", "", 2, 2⟩] := by
  refine ⟨by decide, by decide, by decide⟩

/-- Claim C5 (corrected, amended): with a missing or unparseable prior file
the reconcilers raise no error and proceed with only the newly fetched data.
For the time-series path the output is identical to reconciling against an
empty history.  For the ranked path the output is the raw new list as-is
(keys present), which equals reconciling against an empty history exactly
when that list already has pairwise-distinct keys and is sorted descending
by count. -/
theorem C5_first_run_amended :
    (∀ data : List (ℤ × Counts), (data.map Prod.fst).Nodup →
      create_cumulative_dataframe none data
        = create_cumulative_dataframe (some []) data) ∧
    (∀ new_data : List RankedRow,
      create_referral_dataframe none new_data = new_data.map to_combined) ∧
    (∀ new_data : List RankedRow, (new_data.map RankedRow.key).Nodup →
      List.Sorted (fun a b => b.count ≤ a.count) new_data →
      create_referral_dataframe (some []) new_data = new_data.map to_combined) := by
  refine ⟨?_, fun _ => rfl, ?_⟩
  · intro data hnd
    rw [create_cumulative_dataframe, create_cumulative_dataframe,
      cumul_frame_none, cumul_frame_some hnd, List.nil_append]
  · intro new_data hnd hsort
    have hkeysnd : ((new_data.map to_combined).map CombinedRow.key).Nodup := by
      rw [List.map_map]
      have hco : new_data.map (CombinedRow.key ∘ to_combined)
          = (new_data.map RankedRow.key).map some := by
        rw [List.map_map]
        rfl
      rw [hco]
      exact hnd.map (fun a b h => by injection h)
    have hsorted : List.Sorted (fun a b : CombinedRow => b.count ≤ a.count)
        (new_data.map to_combined) :=
      List.Pairwise.map to_combined (fun _ _ h => h) hsort
    show sort_values_count_desc (drop_duplicates_keep_last
        (([] : List RankedRow).map strip_key ++ new_data.map to_combined))
      = new_data.map to_combined
    rw [List.map_nil, List.nil_append, dedup_of_nodup_keys hkeysnd]
    exact hsorted.insertionSort_eq

/-- Witness for C5's amended statement. -/
theorem C5_first_run_amended_witness :
    create_cumulative_dataframe none [((0 : ℤ), (⟨1, 1⟩ : Counts))]
        = create_cumulative_dataframe (some []) [((0 : ℤ), (⟨1, 1⟩ : Counts))] ∧
    create_referral_dataframe none [⟨"b", "", 2, 2⟩]
        = ([⟨"b", "", 2, 2⟩] : List RankedRow).map to_combined ∧
    create_referral_dataframe (some []) [⟨"b", "", 2, 2⟩, ⟨"a", "", 1, 1⟩]
        = ([⟨"b", "", 2, 2⟩, ⟨"a", "", 1, 1⟩] : List RankedRow).map to_combined :=
  ⟨C5_first_run_amended.1 _ (by decide), C5_first_run_amended.2.1 _,
    C5_first_run_amended.2.2 _ (by decide) (by decide)⟩

/-- Shared specification of the ranked merge at a single key value of the
combined frame (`none` for the key-less prior rows, `some k` for fetched
keys): the surviving row carrying that key value is the last row with it in
the concatenation order (prior rows then new rows), and it is unique in the
merged table. -/
theorem referral_merge_key_spec (old_data new_data : List RankedRow)
    (k : Option String)
    (hk : k ∈ (old_data.map strip_key ++ new_data.map to_combined).map
      CombinedRow.key) :
    ∃ r, last_row_with k (old_data.map strip_key ++ new_data.map to_combined)
        = some r ∧
      r ∈ create_referral_dataframe (some old_data) new_data ∧
      ∀ s ∈ create_referral_dataframe (some old_data) new_data, s.key = k → s = r := by
  have hperm : (create_referral_dataframe (some old_data) new_data).Perm
      (drop_duplicates_keep_last
        (old_data.map strip_key ++ new_data.map to_combined)) :=
    List.perm_insertionSort _ _
  obtain ⟨r, hr⟩ : ∃ r,
      last_row_with k (old_data.map strip_key ++ new_data.map to_combined)
        = some r := by
    have hs := (last_row_with_isSome k _).mpr hk
    cases hlr : last_row_with k (old_data.map strip_key ++ new_data.map to_combined) with
    | none =>
      rw [hlr] at hs
      simp at hs
    | some r => exact ⟨r, rfl⟩
  have hrk : r.key = k := (last_row_with_mem hr).2
  have hrmem : r ∈ create_referral_dataframe (some old_data) new_data :=
    hperm.mem_iff.mpr (mem_dedup_iff.mpr (hrk.symm ▸ hr))
  refine ⟨r, hr, hrmem, ?_⟩
  intro s hs hsk
  have hs2 : last_row_with s.key (old_data.map strip_key ++ new_data.map to_combined)
      = some s := mem_dedup_iff.mp (hperm.mem_iff.mp hs)
  rw [hsk, hr] at hs2
  injection hs2 with h3
  exact h3.symm

/-- Claim C4 (code bug): on the collision prior `K ↦ (5, 5)` versus fetched
`K ↦ (10, 7)`, the claim — and the code's own comment "keeping the latest
data for each referrer/path" — expects exactly one row for `K`, the new
`(10, 7)`.  The code instead also keeps a key-less `(5, 5)` row carried
from the prior table: the cumulative ranked file is written with
`index=False`, so its first column is the key column, yet the next run
reads it with `index_col=0` and discards that index via
`reset_index(drop=True)`, destroying every prior key; the prior row is then
never deduplicated against the fetched `K`, and the claimed
replace-on-collision does not happen. -/
theorem C4_ranked_merge_code_bug :
    create_referral_dataframe (some [⟨"K", "", 5, 5⟩]) [⟨"K", "", 10, 7⟩]
      = [⟨some "K", "", 10, 7⟩, ⟨none, "", 5, 5⟩] ∧
    create_referral_dataframe (some [⟨"K", "", 5, 5⟩]) [⟨"K", "", 10, 7⟩]
      ≠ [⟨some "K", "", 10, 7⟩] := by
  refine ⟨by decide, by decide⟩

/-- Claim C10 (confirmed): when the newly fetched list contains several rows
with the same key, the merged table keeps exactly one row carrying that key:
the last-occurring such row in the concatenation order (prior rows — which
are key-less after read-back — then new rows), i.e. deterministically the
last occurrence inside the fetched response. -/
theorem C10_within_fetch_dedup (old_data new_data : List RankedRow) (k : String)
    (hk : k ∈ new_data.map RankedRow.key) :
    ∃ r, last_row_with (some k) (old_data.map strip_key ++ new_data.map to_combined)
        = some r ∧
      r ∈ new_data.map to_combined ∧
      r ∈ create_referral_dataframe (some old_data) new_data ∧
      ∀ s ∈ create_referral_dataframe (some old_data) new_data,
        s.key = some k → s = r := by
  have hknew : some k ∈ (new_data.map to_combined).map CombinedRow.key := by
    rcases List.mem_map.mp hk with ⟨q, hq, hqk⟩
    refine List.mem_map.mpr ⟨to_combined q, List.mem_map.mpr ⟨q, hq, rfl⟩, ?_⟩
    rw [← hqk]
    rfl
  have hkcomb : some k ∈ (old_data.map strip_key ++ new_data.map to_combined).map
      CombinedRow.key := by
    rw [List.map_append, List.mem_append]
    exact Or.inr hknew
  obtain ⟨r, hr, hrmem, huniq⟩ :=
    referral_merge_key_spec old_data new_data (some k) hkcomb
  have hrnew : r ∈ new_data.map to_combined := by
    rw [last_row_with_append] at hr
    cases h2 : last_row_with (some k) (new_data.map to_combined) with
    | none =>
      have hs := (last_row_with_isSome (some k) (new_data.map to_combined)).mpr hknew
      rw [h2] at hs
      simp at hs
    | some q =>
      rw [h2] at hr
      injection hr with h3
      exact h3 ▸ (last_row_with_mem h2).1
  exact ⟨r, hr, hrnew, hrmem, huniq⟩

/-- Witness for C10: the fetch carries two rows for key `K`; the
last-occurring one, `(3, 9)`, survives (alongside the key-less prior row,
which the statement does not touch). -/
theorem C10_within_fetch_dedup_witness :
    ∃ r, last_row_with (some "K")
        (([⟨"K", "t", 5, 5⟩] : List RankedRow).map strip_key
          ++ ([⟨"K", "a", 10, 7⟩, ⟨"K", "b", 3, 9⟩] : List RankedRow).map to_combined)
        = some r ∧
      r ∈ ([⟨"K", "a", 10, 7⟩, ⟨"K", "b", 3, 9⟩] : List RankedRow).map to_combined ∧
      r ∈ create_referral_dataframe (some [⟨"K", "t", 5, 5⟩])
          [⟨"K", "a", 10, 7⟩, ⟨"K", "b", 3, 9⟩] ∧
      ∀ s ∈ create_referral_dataframe (some [⟨"K", "t", 5, 5⟩])
          [⟨"K", "a", 10, 7⟩, ⟨"K", "b", 3, 9⟩], s.key = some "K" → s = r :=
  C10_within_fetch_dedup [⟨"K", "t", 5, 5⟩] [⟨"K", "a", 10, 7⟩, ⟨"K", "b", 3, 9⟩]
    "K" (by decide)

/-- When a frame's dates are exactly the 14-day window `[hi-13, hi]`, the
snapshot (`sort_index().last('14D')`) keeps every row, sorted ascending. -/
theorem create_snapshot_of_window {l : List (ℤ × Counts)} {lo hi : ℤ}
    (hlo : lo = hi - 13) (hne : l ≠ []) (hnd : (l.map Prod.fst).Nodup)
    (hkeys : ∀ d, d ∈ l.map Prod.fst ↔ (lo ≤ d ∧ d ≤ hi)) :
    (create_snapshot_dataframe l).map Prod.fst = date_range lo hi ∧
    (∀ d, dict_get (create_snapshot_dataframe l) d = dict_get l d) := by
  have hhimem : hi ∈ l.map Prod.fst := (hkeys hi).mpr ⟨by omega, le_refl _⟩
  have hhi : days_max l = hi :=
    le_antisymm ((hkeys _).mp (days_max_mem hne)).2 (le_days_max hhimem)
  obtain ⟨p, ps, rfl⟩ : ∃ p ps, l = p :: ps := by
    cases l with
    | nil => exact absurd rfl hne
    | cons p ps => exact ⟨p, ps, rfl⟩
  have hperm : (List.insertionSort (fun a b : ℤ × Counts => a.1 ≤ b.1) (p :: ps)).Perm
      (p :: ps) := List.perm_insertionSort _ _
  have hsortnd : ((List.insertionSort (fun a b : ℤ × Counts => a.1 ≤ b.1)
      (p :: ps)).map Prod.fst).Nodup :=
    ((hperm.map Prod.fst).nodup_iff).mpr hnd
  have hfilter : (List.insertionSort (fun a b : ℤ × Counts => a.1 ≤ b.1)
        (p :: ps)).filter (fun q => decide (days_max (p :: ps) - 14 < q.1))
      = List.insertionSort (fun a b : ℤ × Counts => a.1 ≤ b.1) (p :: ps) := by
    rw [List.filter_eq_self]
    intro q hq
    have hqmem : q.1 ∈ (p :: ps).map Prod.fst :=
      List.mem_map.mpr ⟨q, hperm.mem_iff.mp hq, rfl⟩
    have hb := (hkeys _).mp hqmem
    rw [hhi]
    simp only [decide_eq_true_eq]
    omega
  have hsnap : create_snapshot_dataframe (p :: ps)
      = List.insertionSort (fun a b : ℤ × Counts => a.1 ≤ b.1) (p :: ps) := by
    show (List.insertionSort (fun a b : ℤ × Counts => a.1 ≤ b.1) (p :: ps)).filter
        (fun q => decide (days_max (p :: ps) - 14 < q.1))
      = List.insertionSort (fun a b : ℤ × Counts => a.1 ≤ b.1) (p :: ps)
    exact hfilter
  rw [hsnap]
  have hanti : IsAntisymm ℤ (· ≤ ·) := ⟨fun _ _ h1 h2 => le_antisymm h1 h2⟩
  constructor
  · refine List.eq_of_perm_of_sorted (r := (· ≤ ·)) ?_ ?_ ?_
    · refine List.perm_of_nodup_nodup_toFinset_eq hsortnd (nodup_date_range lo hi) ?_
      ext x
      rw [List.mem_toFinset, List.mem_toFinset, (hperm.map Prod.fst).mem_iff,
        hkeys, mem_date_range]
    · rw [List.Sorted, List.pairwise_map]
      exact List.sorted_insertionSort _ _
    · exact (sorted_lt_date_range lo hi).le_of_lt
  · intro d
    exact dict_get_of_perm hperm hsortnd d

/-- Claim C3 (confirmed): when every raw event falls in the last-14-days
window `[today-13, today]`, the emitted snapshot has exactly 14 rows, one
per calendar date of the window in ascending order; a date's row is the sum
of its events' `count` and `uniques` fields, and `(0, 0)` where no event
falls. -/
theorem C3_snapshot_densification (events : List MetricEvent) (today : ℤ)
    (hin : ∀ e ∈ events, today - 13 ≤ e.day ∧ e.day ≤ today) :
    (create_snapshot_dataframe (get_counts events today)).length = 14 ∧
    (create_snapshot_dataframe (get_counts events today)).map Prod.fst
        = date_range (today - 13) today ∧
    (∀ d, today - 13 ≤ d → d ≤ today →
      dict_get (create_snapshot_dataframe (get_counts events today)) d
        = some (event_agg events d)) ∧
    (∀ d, d ∉ events.map MetricEvent.day → today - 13 ≤ d → d ≤ today →
      dict_get (create_snapshot_dataframe (get_counts events today)) d
        = some ⟨0, 0⟩) := by
  have hkeys : ∀ d, d ∈ (get_counts events today).map Prod.fst ↔
      (today - 13 ≤ d ∧ d ≤ today) := by
    intro d
    rw [get_counts_keys]
    constructor
    · rintro (h | h)
      · rcases List.mem_map.mp h with ⟨e, he, rfl⟩
        exact hin e he
      · exact h
    · exact Or.inr
  have htoday : today ∈ (get_counts events today).map Prod.fst :=
    (hkeys today).mpr ⟨by omega, le_refl _⟩
  have hgne : get_counts events today ≠ [] := by
    intro h
    rw [h] at htoday
    simp at htoday
  obtain ⟨hmap, hval⟩ := create_snapshot_of_window rfl hgne
    (get_counts_nodup events today) hkeys
  refine ⟨?_, hmap, ?_, ?_⟩
  · have h := congrArg List.length hmap
    rw [List.length_map, length_date_range] at h
    rw [h]
    have h14 : today + 1 - (today - 13) = 14 := by ring
    rw [h14]
    rfl
  · intro d h1 h2
    rw [hval d, get_counts_get]
    by_cases hd : d ∈ events.map MetricEvent.day
    · rw [if_pos hd]
    · rw [if_neg hd, if_pos ⟨h1, h2⟩, event_agg_zero hd]
  · intro d hd h1 h2
    rw [hval d, get_counts_get, if_neg hd, if_pos ⟨h1, h2⟩]

/-- Witness for C3 at the spec's example: two events on the last two days
of the window, `today = 13`. -/
theorem C3_snapshot_densification_witness :
    (create_snapshot_dataframe (get_counts
        [⟨12, 10, 8⟩, ⟨13, 5, 3⟩] 13)).length = 14 ∧
    (create_snapshot_dataframe (get_counts
        [⟨12, 10, 8⟩, ⟨13, 5, 3⟩] 13)).map Prod.fst
      = date_range (13 - 13) 13 ∧
    (∀ d, (13 : ℤ) - 13 ≤ d → d ≤ 13 →
      dict_get (create_snapshot_dataframe (get_counts
        [⟨12, 10, 8⟩, ⟨13, 5, 3⟩] 13)) d
        = some (event_agg [⟨12, 10, 8⟩, ⟨13, 5, 3⟩] d)) ∧
    (∀ d, d ∉ ([⟨12, 10, 8⟩, ⟨13, 5, 3⟩] : List MetricEvent).map MetricEvent.day →
      (13 : ℤ) - 13 ≤ d → d ≤ 13 →
      dict_get (create_snapshot_dataframe (get_counts
        [⟨12, 10, 8⟩, ⟨13, 5, 3⟩] 13)) d = some ⟨0, 0⟩) :=
  C3_snapshot_densification [⟨12, 10, 8⟩, ⟨13, 5, 3⟩] 13 (by decide)

